import Mathlib

/-!
Verification of the core of the uokichi retargetable machine-code encoder
(`src/main.rs`): the `Bits` bit-manipulation primitives, the `Opdef`
encoding templates, the `Idef` instruction definitions, the `HexRecord`
checksum, and the two-pass `Code::new` address/label resolver.

All machine words are `u64` in the source; they are embedded as `Nat`
with an explicit `% 2 ^ 64` wherever the source's 64-bit arithmetic can
wrap or discard bits.  Shift amounts are reduced mod 64, matching the
masked shifts of the compiled program.  The one genuinely partial
operation, indexing a slice that may be empty, is modelled with `Option`
(`none` = panic).
-/

namespace Uokichi

/-- The modulus of 64-bit unsigned arithmetic. -/
def U64 : Nat := 2 ^ 64

/-- The value of `u64::max_value()`: all 64 bits set. -/
def U64MAX : Nat := 2 ^ 64 - 1

/-- `Bits::mask(ct)`: `!(Self::max_value() << ct)` at type `u64`.  The
complement is xor with the all-ones word; the shift amount is reduced
mod 64 and the shifted-out bits are discarded, as in the compiled
program. -/
def Bits.mask (ct : Nat) : Nat :=
  U64MAX ^^^ ((U64MAX <<< (ct % 64)) % U64)

/-- The loop body of `Bits::eat`, iterated: `n` iterations remain, `i` is
the loop counter, `s` the running mask (`self`), `v` the remaining
argument bits (`val`), `ret` the accumulator.  When the mask's low bit is
set, the argument's low bit is placed at output position `i` and the
argument is consumed by one bit. -/
def Bits.eatGo : Nat → Nat → Nat → Nat → Nat → Nat
  | 0, _, _, _, ret => ret
  | n + 1, i, s, v, ret =>
    if s &&& 1 = 1 then
      Bits.eatGo n (i + 1) (s >>> 1) (v >>> 1) (ret ||| ((v &&& 1) <<< i))
    else
      Bits.eatGo n (i + 1) (s >>> 1) v ret

/-- `Bits::eat(self, val)` for the `u64` instance: 64 loop iterations,
starting from a zero accumulator. -/
def Bits.eat (self val : Nat) : Nat := Bits.eatGo 64 0 self val 0

/-- `Opdef`: a compiled encoding template, `base` plus one scatter mask
per argument. -/
structure Opdef where
  base : Nat
  args : List Nat

/-- The shift-and-accumulate scan shared by both folds in `Opdef::new`:
set a bit exactly where the pattern character equals `target`.  The
accumulator is a `u64`, so each left shift silently discards the high
bit. -/
def scanBits (target : Char) (spec : List Char) : Nat :=
  spec.foldl
    (fun acc c =>
      if c = target then ((acc <<< 1) % U64) ||| 1 else (acc <<< 1) % U64)
    0

/-- `Opdef::new(spec_str, arg_order)`: the base scans for literal `'1'`
characters; one mask is built per character of `arg_order`, in
`arg_order`'s order. -/
def Opdef.new (spec_str arg_order : String) : Opdef :=
  { base := scanBits '1' spec_str.data
    args := arg_order.data.map fun ac => scanBits ac spec_str.data }

/-- `Opdef::apply`: zip the argument values with the masks (extra
elements on either side are dropped by `zip`), scatter each argument
through its mask, and or everything onto the base. -/
def Opdef.apply (self : Opdef) (arg_vals : List Nat) : Nat :=
  ((arg_vals.zip self.args).map fun p => Bits.eat p.2 p.1).foldl
    (fun acc x => acc ||| x) self.base

/-- `Idef`: a named instruction definition wrapping an `Opdef` with a
pre-shift (an `i32` in the source). -/
structure Idef where
  name : String
  opdef : Opdef
  shift : Int

/-- `Idef::apply`.  With `shift == 0` the arguments are forwarded
unchanged.  Otherwise the source indexes `args[0]` — a panic on an empty
slice, modelled as `none` — and right-shifts it by `shift`, the shift
amount reduced mod 64 as the compiled program does. -/
def Idef.apply? (self : Idef) (args : List Nat) : Option Nat :=
  if self.shift = 0 then
    some (self.opdef.apply args)
  else
    match args with
    | [] => none
    | a :: _ => some (self.opdef.apply [a >>> (self.shift.emod 64).toNat])

/-- The record kinds of the hexadecimal line format, in declaration
order (so with discriminants 0..5; the typo `StarLinearAddress` is the
source's). -/
inductive HexRecordType where
  | Data
  | EndOfFile
  | ExtendedSegmentAddress
  | StartSegmentAddress
  | ExtendedLinearAddress
  | StarLinearAddress

/-- The numeric discriminant used by `self.typ as u16`. -/
def HexRecordType.code : HexRecordType → Nat
  | .Data => 0
  | .EndOfFile => 1
  | .ExtendedSegmentAddress => 2
  | .StartSegmentAddress => 3
  | .ExtendedLinearAddress => 4
  | .StarLinearAddress => 5

/-- `HexRecord`: a typed address + payload record.  `addr` is a `u16`,
the payload bytes are `u8`s; the corresponding bounds appear as
hypotheses of the theorems. -/
structure HexRecord where
  typ : HexRecordType
  addr : Nat
  data : List Nat

/-- The modulus of 16-bit unsigned arithmetic. -/
def U16 : Nat := 2 ^ 16

/-- `u16::wrapping_add`. -/
def wadd16 (a b : Nat) : Nat := (a + b) % U16

/-- The `twos_complement` helper inside `HexRecord::checksum`:
`(num ^ u16::max_value()).wrapping_add(1)`. -/
def twosComplement (num : Nat) : Nat := ((num ^^^ 65535) + 1) % U16

/-- `HexRecord::checksum`: 16-bit wrapping sum of the full address, the
type code, the address high byte, the (u16-truncated) payload length and
the payload bytes, then the low byte of its two's complement. -/
def HexRecord.checksum (self : HexRecord) : Nat :=
  let r1 := wadd16 0 self.addr
  let r2 := wadd16 r1 self.typ.code
  let r3 := wadd16 r2 (self.addr >>> 8)
  let r4 := wadd16 r3 (self.data.length % U16)
  let r5 := self.data.foldl (fun acc byte => wadd16 acc byte) r4
  0xff &&& twosComplement r5

/-- `IArg`: an instruction argument, literal or unresolved label
reference. -/
inductive IArg where
  | Raw (v : Nat)
  | LabelAccess (name : String) (is_relative : Bool) (offset : Int)

/-- `CodeObject`: one element of the program being assembled. -/
inductive CodeObject where
  | Instruction (idef : Idef) (args : List IArg)
  | RawData (v : Nat)
  | AddressTag (a : Nat)
  | LabelTag (s : String)

/-- `CompileError`: the two construction-time failures of `Code::new`. -/
inductive CompileError where
  | StartWithAddressTag
  | DuplicateLabel (s : String)
deriving DecidableEq

/-- `CodeInfo`: opcode and address sizes (both `u8`). -/
structure CodeInfo where
  opcode_size : Nat
  address_size : Nat

/-- `Code`: the result of a successful `Code::new`.  The hash map
`label_table` is modelled as an association list. -/
structure Code where
  info : CodeInfo
  code : List CodeObject
  addr_image : List Nat
  label_table : List (String × Nat)

/-- Lookup in the label table (`HashMap::contains_key` / `get`). -/
def tableLookup : List (String × Nat) → String → Option Nat
  | [], _ => none
  | (k, v) :: rest, n => if n = k then some v else tableLookup rest n

/-- `HashMap::insert` of a key that is not yet present. -/
def tableInsert (t : List (String × Nat)) (k : String) (v : Nat) :
    List (String × Nat) :=
  (k, v) :: t

/-- One iteration of the first loop of `Code::new`: push the current
offset onto `addr_image`, then update the offset according to the
object's kind (`offset += 1` is 64-bit arithmetic). -/
def pass1Step (st : List Nat × Nat) (obj : CodeObject) : List Nat × Nat :=
  (st.1 ++ [st.2],
   match obj with
   | .AddressTag addr => addr
   | .RawData _ => (st.2 + 1) % U64
   | .Instruction _ _ => (st.2 + 1) % U64
   | .LabelTag _ => st.2)

/-- The first pass of `Code::new`: the complete `addr_image` produced by
folding `pass1Step` over the objects, seeded with the leading tag's
address. -/
def pass1 (code : List CodeObject) (offset : Nat) : List Nat :=
  (code.foldl pass1Step ([], offset)).1

/-- The second loop of `Code::new`: walk addresses and objects in
lockstep, inserting every label and failing on a repeated name. -/
def pass2 :
    List (Nat × CodeObject) → List (String × Nat) →
      Except CompileError (List (String × Nat))
  | [], table => .ok table
  | (addr, obj) :: rest, table =>
    match obj with
    | .LabelTag label =>
      if (tableLookup table label).isSome then
        .error (.DuplicateLabel label)
      else
        pass2 rest (tableInsert table label addr)
    | _ => pass2 rest table

/-- `Code::new`.  The source indexes `code[0]` before any check, so the
empty sequence panics (`none`); otherwise the `Result` is returned. -/
def Code.new? (info : CodeInfo) (code : List CodeObject) :
    Option (Except CompileError Code) :=
  match code with
  | [] => none
  | first :: _ =>
    match first with
    | .AddressTag addr =>
      some
        (match pass2 ((pass1 code addr).zip code) [] with
         | .error e => .error e
         | .ok table =>
           .ok { info := info, code := code,
                 addr_image := pass1 code addr, label_table := table })
    | _ => some (.error .StartWithAddressTag)

/-- The label names of a code-object sequence, in order. -/
def labelNames (code : List CodeObject) : List String :=
  code.filterMap fun obj =>
    match obj with
    | .LabelTag s => some s
    | _ => none

/-- The label names of an address/object pair list, in order (the view
of the second pass's input). -/
def pairLabels (l : List (Nat × CodeObject)) : List String :=
  l.filterMap fun p =>
    match p.2 with
    | .LabelTag s => some s
    | _ => none

/-- The counter update as the specification words it (on the 64-bit
counter): `AddressMark(addr)` sets it, `Instruction` and `RawWord`
increment it, `LabelMark` keeps it. -/
def specStep (counter : Nat) : CodeObject → Nat
  | .AddressTag a => a
  | .Instruction _ _ => (counter + 1) % U64
  | .RawData _ => (counter + 1) % U64
  | .LabelTag _ => counter

/-- The address sequence as the specification words it: record the
counter's current value for each object, then update it. -/
def specAddresses (counter : Nat) : List CodeObject → List Nat
  | [] => []
  | obj :: rest => counter :: specAddresses (specStep counter obj) rest

/-- The `CodeInfo` used by the worked examples (`main`). -/
def exInfo : CodeInfo := { opcode_size := 8, address_size := 16 }

/-- The `add` instruction definition of `main`. -/
def idefAdd : Idef :=
  { name := "add", opdef := Opdef.new "0011aabb" "ab", shift := 0 }

/-- The `jmp` instruction definition of `main`. -/
def idefJmp : Idef :=
  { name := "jmp", opdef := Opdef.new "0011aaaa" "a", shift := 8 }

/-- Assembler example A: address mark, label, two instructions, one raw
word. -/
def exCodeA : List CodeObject :=
  [ .AddressTag 0
  , .LabelTag "start"
  , .Instruction idefAdd [.Raw 3, .Raw 0]
  , .Instruction idefJmp [.Raw 0xdead]
  , .RawData 0xad ]

/-- An instruction definition with a pre-shift of 64, used to probe the
shift-amount boundary of `Idef::apply`. -/
def idefShift64 : Idef :=
  { name := "s64", opdef := Opdef.new "a" "a", shift := 64 }

/-- The distinct elements of a character list in first-occurrence order
(`seen` accumulates the characters already kept). -/
def dedupFirstGo (seen : List Char) : List Char → List Char
  | [] => []
  | c :: rest =>
    if c ∈ seen then dedupFirstGo seen rest
    else c :: dedupFirstGo (c :: seen) rest

/-- Modelled from the claim's words, for comparison with `Opdef::new`:
one mask per distinct argument letter (a pattern character other than
'0' and '1'), in first-occurrence order within the pattern string. -/
def claimArgMasks (spec_str : String) : List Nat :=
  (dedupFirstGo [] (spec_str.data.filter fun c => c != '0' && c != '1')).map
    fun c => scanBits c spec_str.data

/-- The untruncated value of a shift-and-accumulate scan: fold over the
pattern accumulating `2 * acc + 1` where the character equals `target`
and `2 * acc` elsewhere, with no 64-bit truncation. -/
def bitsOf (target : Char) (l : List Char) : Nat :=
  l.foldl (fun acc c => 2 * acc + (if c = target then 1 else 0)) 0

/-- A 65-character pattern: '1' followed by 64 '0' characters.  Its
leading bit does not fit in a `u64`. -/
def longPattern : String :=
  "10000000000000000000000000000000000000000000000000000000000000000"

/-! ## Helper lemmas on bit operations -/

theorem or_two_pow_of_lt {a i : Nat} (h : a < 2 ^ i) : a ||| 2 ^ i = a + 2 ^ i := by
  have := Nat.mul_add_lt_is_or h 1
  rw [Nat.mul_one] at this
  rw [Nat.lor_comm, ← this, Nat.add_comm]

theorem two_mul_or_one (k : Nat) : 2 * k ||| 1 = 2 * k + 1 := by
  have h1 : (1 : Nat) < 2 ^ 1 := by decide
  have := Nat.mul_add_lt_is_or h1 k
  simpa using this.symm

theorem xor_mod_two_pow (a b n : Nat) :
    (a ^^^ b) % 2 ^ n = (a % 2 ^ n) ^^^ (b % 2 ^ n) := by
  apply Nat.eq_of_testBit_eq
  intro i
  simp [Nat.testBit_mod_two_pow, Nat.testBit_xor]
  by_cases h : i < n <;> simp [h]

set_option maxRecDepth 4000 in
theorem xor_255_eq (m : Nat) (h : m < 256) : m ^^^ 255 = 255 - m := by
  revert m
  decide

set_option maxRecDepth 4000 in
theorem Bits.mask_eq_of_lt {k : Nat} (hk : k < 64) : Bits.mask k = 2 ^ k - 1 := by
  revert k
  decide

theorem Bits.eatGo_zero_mask : ∀ n i v ret, Bits.eatGo n i 0 v ret = ret := by
  intro n
  induction n with
  | zero => intro i v ret; rfl
  | succ n ih => intro i v ret; simp [Bits.eatGo, ih]

theorem Bits.eatGo_ones_mask :
    ∀ m n i v ret, m ≤ n → v < 2 ^ m → ret < 2 ^ i →
      Bits.eatGo n i (2 ^ m - 1) v ret = ret + v * 2 ^ i := by
  intro m
  induction m with
  | zero =>
    intro n i v ret _ hv _
    have hv0 : v = 0 := by omega
    subst hv0
    simp [Bits.eatGo_zero_mask]
  | succ m ih =>
    intro n i v ret hmn hv hret
    match n, hmn with
    | n + 1, hmn =>
      have hpos : 0 < 2 ^ m := Nat.two_pow_pos m
      have h2 : 2 ^ (m + 1) = 2 * 2 ^ m := by rw [Nat.pow_succ]; ring
      have hodd : (2 ^ (m + 1) - 1) &&& 1 = 1 := by
        rw [Nat.and_one_is_mod]; omega
      have hs : (2 ^ (m + 1) - 1) >>> 1 = 2 ^ m - 1 := by
        rw [Nat.shiftRight_eq_div_pow]; omega
      have hvd : v >>> 1 = v / 2 := by
        rw [Nat.shiftRight_eq_div_pow]
      have hor : ret ||| ((v &&& 1) <<< i) = ret + v % 2 * 2 ^ i := by
        rw [Nat.and_one_is_mod, Nat.shiftLeft_eq]
        rcases Nat.mod_two_eq_zero_or_one v with h | h
        · simp [h]
        · simp only [h, Nat.one_mul]
          exact or_two_pow_of_lt hret
      have hret' : ret + v % 2 * 2 ^ i < 2 ^ (i + 1) := by
        have : v % 2 ≤ 1 := by omega
        have h2i : 2 ^ (i + 1) = 2 * 2 ^ i := by rw [Nat.pow_succ]; ring
        nlinarith [Nat.pos_pow_of_pos i (show 0 < 2 by omega)]
      have hvlt : v / 2 < 2 ^ m := by omega
      show Bits.eatGo (n + 1) i (2 ^ (m + 1) - 1) v ret = ret + v * 2 ^ i
      rw [Bits.eatGo, if_pos hodd, hs, hvd, hor,
        ih n (i + 1) (v / 2) (ret + v % 2 * 2 ^ i) (by omega) hvlt hret']
      have hsplit : v = 2 * (v / 2) + v % 2 := by omega
      have hpi : 2 ^ (i + 1) = 2 ^ i * 2 := by rw [Nat.pow_succ]
      conv_rhs => rw [hsplit]
      rw [hpi]
      ring

/-! ## C6 -/

/-- C6, counterexample: at `k = 64` the claim fails.  `Bits::mask(64)`
is the complement of `u64::MAX << 64`; the masked shift makes it 0 (a
debug build panics instead), so scattering `v = 1 < 2 ^ 64` through it
returns 0, not `v`. -/
theorem scatter_width_mask_counterexample :
    Bits.mask 64 = 0 ∧ (1 : Nat) < 2 ^ 64 ∧
      Bits.eat (Bits.mask 64) 1 = 0 ∧ Bits.eat (Bits.mask 64) 1 ≠ 1 := by
  refine ⟨by decide, by decide, by decide, by decide⟩

/-- C6 (amended): for every `k < 64` (within the `u64` width, where
`Bits::mask(k)` really is the low-`k`-bits mask) and every `v < 2 ^ k`,
scattering `v` through the width mask returns `v` unchanged. -/
theorem scatter_width_mask_identity {k v : Nat} (hk : k < 64) (hv : v < 2 ^ k) :
    Bits.eat (Bits.mask k) v = v := by
  unfold Bits.eat
  rw [Bits.mask_eq_of_lt hk,
    Bits.eatGo_ones_mask k 64 0 v 0 (Nat.le_of_lt hk) hv (by decide)]
  simp

/-- Witness for C6's amended theorem at `k = 3`, `v = 5`. -/
theorem scatter_width_mask_identity_witness :
    (3 : Nat) < 64 ∧ (5 : Nat) < 2 ^ 3 ∧ Bits.eat (Bits.mask 3) 5 = 5 :=
  ⟨by decide, by decide, scatter_width_mask_identity (by decide) (by decide)⟩

/-! ## C4 -/

/-- C4: a non-empty object sequence whose first element is not an
`AddressTag` is rejected with `StartWithAddressTag`. -/
theorem code_new_start_tag_error (info : CodeInfo) (first : CodeObject)
    (rest : List CodeObject) (h : ∀ a, first ≠ CodeObject.AddressTag a) :
    Code.new? info (first :: rest) =
      some (.error .StartWithAddressTag) := by
  cases first with
  | AddressTag a => exact absurd rfl (h a)
  | Instruction idef args => rfl
  | RawData v => rfl
  | LabelTag s => rfl

/-- Witness for C4 at a singleton `RawData` sequence. -/
theorem code_new_start_tag_error_witness :
    (∀ a, CodeObject.RawData 7 ≠ CodeObject.AddressTag a) ∧
      Code.new? exInfo [CodeObject.RawData 7] =
        some (.error .StartWithAddressTag) :=
  ⟨fun _ h => CodeObject.noConfusion h,
   code_new_start_tag_error exInfo (CodeObject.RawData 7) []
     fun _ h => CodeObject.noConfusion h⟩

/-! ## C10 -/

/-- C10: `Code::new` indexes `code[0]` before its leading-tag check, so
it panics (`none`) exactly on the empty sequence and returns a `Result`
(`some`) on every non-empty one. -/
theorem code_new_total_iff_nonempty (info : CodeInfo) (code : List CodeObject) :
    (Code.new? info code).isSome ↔ code ≠ [] := by
  cases code with
  | nil => simp [Code.new?]
  | cons first rest => cases first <;> simp [Code.new?]

/-! ## C7 -/

theorem zip_take_left {α β : Type} :
    ∀ (as : List α) (bs : List β), as.zip bs = (as.take bs.length).zip bs := by
  intro as
  induction as with
  | nil => intro bs; simp
  | cons a as ih =>
    intro bs
    cases bs with
    | nil => simp
    | cons b bs => simp [List.zip_cons_cons, ih bs]

theorem zip_take_right {α β : Type} :
    ∀ (as : List α) (bs : List β), as.zip bs = as.zip (bs.take as.length) := by
  intro as
  induction as with
  | nil => intro bs; simp
  | cons a as ih =>
    intro bs
    cases bs with
    | nil => simp
    | cons b bs => simp [List.zip_cons_cons, ih bs]

/-- C7, counterexample: with a non-zero pre-shift and an empty argument
list (so the argument count, 0, differs from the template's mask count,
1), `Idef::apply` does not silently truncate: it indexes `args[0]` and
panics (`none`). -/
theorem apply_arity_counterexample :
    idefJmp.shift ≠ 0 ∧ idefJmp.opdef.args.length = 1 ∧
      Idef.apply? idefJmp [] = none := by
  refine ⟨by decide, by decide, by decide⟩

/-- C7 (amended): `Opdef::apply` always pairs positionally and drops the
excess of either list; `Idef::apply` does the same when its pre-shift is
zero (arguments are forwarded), and with a non-zero pre-shift it returns
a value (no error) whenever at least one argument is present. -/
theorem apply_arity_truncation :
    (∀ (o : Opdef) (arg_vals : List Nat),
        o.apply arg_vals = o.apply (arg_vals.take o.args.length)) ∧
    (∀ (o : Opdef) (arg_vals : List Nat),
        o.apply arg_vals =
          Opdef.apply ⟨o.base, o.args.take arg_vals.length⟩ arg_vals) ∧
    (∀ (idef : Idef) (args : List Nat), idef.shift = 0 →
        idef.apply? args = some (idef.opdef.apply args)) ∧
    (∀ (idef : Idef) (a : Nat) (rest : List Nat), idef.shift ≠ 0 →
        (idef.apply? (a :: rest)).isSome = true) := by
  refine ⟨?_, ?_, ?_, ?_⟩
  · intro o arg_vals
    unfold Opdef.apply
    rw [← zip_take_left]
  · intro o arg_vals
    unfold Opdef.apply
    rw [← zip_take_right]
  · intro idef args h
    unfold Idef.apply?
    rw [if_pos h]
  · intro idef a rest h
    unfold Idef.apply?
    rw [if_neg h]
    rfl

/-- Witness for C7's amended theorem on the worked instruction
definitions, with argument lists longer than the arity. -/
theorem apply_arity_truncation_witness :
    idefAdd.opdef.apply [3, 0, 9] =
        idefAdd.opdef.apply ([3, 0, 9].take idefAdd.opdef.args.length) ∧
    idefAdd.shift = 0 ∧
    Idef.apply? idefAdd [3, 0, 9] = some (idefAdd.opdef.apply [3, 0, 9]) ∧
    idefJmp.shift ≠ 0 ∧
    (Idef.apply? idefJmp (0xdead :: [5])).isSome = true :=
  ⟨apply_arity_truncation.1 idefAdd.opdef [3, 0, 9], by decide,
   apply_arity_truncation.2.2.1 idefAdd [3, 0, 9] (by decide), by decide,
   apply_arity_truncation.2.2.2 idefJmp 0xdead [5] (by decide)⟩

/-! ## C8 -/

/-- C8, counterexample: at `preshift = 64` the compiled program's shift
amount is masked to 0 (a debug build panics), so the argument is not
right-shifted by 64 bits: on the one-bit template the code yields 1,
while the claimed `args[0] >> 64 = 0` would encode to 0. -/
theorem idef_preshift_counterexample :
    idefShift64.shift = 64 ∧
    Idef.apply? idefShift64 [1] = some 1 ∧
    (1 : Nat) >>> 64 = 0 ∧
    idefShift64.opdef.apply [(1 : Nat) >>> 64] = 0 := by
  refine ⟨by decide, by decide, by decide, by decide⟩

/-- C8 (amended): with `preshift = 0` the argument list is forwarded to
the template unchanged; with `0 < preshift < 64` (in range for the
64-bit word) only the first argument is used, right-shifted by
`preshift`, and the remaining arguments are discarded. -/
theorem idef_preshift_apply :
    (∀ (idef : Idef) (args : List Nat), idef.shift = 0 →
        idef.apply? args = some (idef.opdef.apply args)) ∧
    (∀ (idef : Idef) (a : Nat) (rest : List Nat),
        0 < idef.shift → idef.shift < 64 →
        idef.apply? (a :: rest) =
          some (idef.opdef.apply [a >>> idef.shift.toNat])) := by
  constructor
  · intro idef args h
    unfold Idef.apply?
    rw [if_pos h]
  · intro idef a rest h0 h64
    unfold Idef.apply?
    rw [if_neg (by omega)]
    have : idef.shift.emod 64 = idef.shift := Int.emod_eq_of_lt (by omega) h64
    rw [this]

/-- Witness for C8's amended theorem: `jmp` (pre-shift 8) applied to two
arguments uses only `0xdead >> 8`, and `add` (pre-shift 0) forwards its
arguments. -/
theorem idef_preshift_apply_witness :
    idefAdd.shift = 0 ∧
    Idef.apply? idefAdd [1, 2] = some (idefAdd.opdef.apply [1, 2]) ∧
    (0 : Int) < idefJmp.shift ∧ idefJmp.shift < 64 ∧
    Idef.apply? idefJmp [0xdead, 5] =
      some (idefJmp.opdef.apply [(0xdead : Nat) >>> idefJmp.shift.toNat]) :=
  ⟨by decide, idef_preshift_apply.1 idefAdd [1, 2] (by decide), by decide,
   by decide, idef_preshift_apply.2 idefJmp 0xdead [5] (by decide) (by decide)⟩

/-! ## C9 -/

/-- C9, counterexample: for pattern "ab" with argOrder "ba" the masks
are `[mask b, mask a] = [1, 2]`, the caller-declared order, not the
first-occurrence order within the pattern, which would give `[2, 1]`. -/
theorem arg_masks_order_counterexample :
    (Opdef.new "ab" "ba").args = [1, 2] ∧
    claimArgMasks "ab" = [2, 1] ∧
    (Opdef.new "ab" "ba").args ≠ claimArgMasks "ab" := by
  refine ⟨by decide, by decide, by decide⟩

/-- C9 (amended): `argMasks` has one entry per character of `argOrder`,
in `argOrder`'s order: the k-th mask is the scan mask of `argOrder`'s
k-th letter. -/
theorem arg_masks_follow_arg_order (spec_str arg_order : String) :
    (Opdef.new spec_str arg_order).args.length = arg_order.data.length ∧
    ∀ k : Nat, (Opdef.new spec_str arg_order).args[k]? =
      (arg_order.data[k]?).map fun ac => scanBits ac spec_str.data := by
  constructor
  · simp [Opdef.new]
  · intro k
    simp [Opdef.new]

/-! ## C2 -/

theorem bits_fold_acc (t : Char) :
    ∀ (l : List Char) (acc : Nat),
      l.foldl (fun a c => 2 * a + (if c = t then 1 else 0)) acc =
        acc * 2 ^ l.length + bitsOf t l := by
  intro l
  induction l with
  | nil => intro acc; simp [bitsOf]
  | cons c rest ih =>
    intro acc
    have h1 := ih (2 * acc + (if c = t then 1 else 0))
    have h2 := ih (2 * 0 + (if c = t then 1 else 0))
    simp only [List.foldl_cons, bitsOf, List.length_cons] at h1 h2 ⊢
    rw [h1, h2, Nat.pow_succ]
    ring

theorem bitsOf_lt (t : Char) : ∀ l : List Char, bitsOf t l < 2 ^ l.length := by
  intro l
  induction l with
  | nil => simp [bitsOf]
  | cons c rest ih =>
    have h := bits_fold_acc t rest (2 * 0 + (if c = t then 1 else 0))
    simp only [bitsOf, List.foldl_cons, List.length_cons] at h ih ⊢
    rw [h, Nat.pow_succ]
    have hp := Nat.two_pow_pos rest.length
    by_cases hc : c = t <;> simp only [hc, if_pos, if_neg, ite_true, ite_false] <;> omega

theorem bitsOf_testBit (t : Char) :
    ∀ (l : List Char) (j : Nat) (cj : Char), l[j]? = some cj →
      (bitsOf t l).testBit (l.length - 1 - j) = decide (cj = t) := by
  intro l
  induction l with
  | nil => intro j cj h; simp at h
  | cons c rest ih =>
    intro j cj h
    have hsplit : bitsOf t (c :: rest) =
        2 ^ rest.length * (if c = t then 1 else 0) + bitsOf t rest := by
      have h1 := bits_fold_acc t rest (2 * 0 + (if c = t then 1 else 0))
      simp only [bitsOf, List.foldl_cons] at h1 ⊢
      rw [h1]
      ring
    cases j with
    | zero =>
      simp only [List.getElem?_cons_zero] at h
      injection h with h
      subst h
      have hpos : (c :: rest).length - 1 - 0 = rest.length := by simp
      rw [hpos, hsplit]
      by_cases hc : c = t
      · rw [if_pos hc, Nat.mul_one, Nat.testBit_two_pow_add_eq,
          Nat.testBit_lt_two_pow (bitsOf_lt t rest)]
        simp [hc]
      · rw [if_neg hc, Nat.mul_zero, Nat.zero_add,
          Nat.testBit_lt_two_pow (bitsOf_lt t rest)]
        simp [hc]
    | succ j =>
      simp only [List.getElem?_cons_succ] at h
      have hj : j < rest.length := by
        have := List.getElem?_eq_some.mp h
        exact this.1
      have hpos : (c :: rest).length - 1 - (j + 1) = rest.length - 1 - j := by
        simp only [List.length_cons]
        omega
      have hlt : rest.length - 1 - j < rest.length := by omega
      rw [hpos, hsplit,
        Nat.testBit_mul_pow_two_add _ (bitsOf_lt t rest) _, if_pos hlt]
      exact ih j cj h

theorem scan_fold_eq (t : Char) :
    ∀ (l : List Char) (acc : Nat), l.length ≤ 64 →
      acc < 2 ^ (64 - l.length) →
      l.foldl
          (fun acc c =>
            if c = t then ((acc <<< 1) % U64) ||| 1 else (acc <<< 1) % U64)
          acc =
        l.foldl (fun a c => 2 * a + (if c = t then 1 else 0)) acc := by
  intro l
  induction l with
  | nil => intro acc _ _; rfl
  | cons c rest ih =>
    intro acc hlen hacc
    simp only [List.length_cons] at hlen hacc
    have hrlen : 64 - rest.length = (64 - (rest.length + 1)) + 1 := by omega
    have hp : 2 ^ (64 - rest.length) = 2 ^ (64 - (rest.length + 1)) * 2 := by
      rw [hrlen, Nat.pow_succ]
    have hsmall : 2 ^ (64 - (rest.length + 1)) ≤ 2 ^ 63 :=
      Nat.pow_le_pow_right (by omega) (by omega)
    have h64 : (2 : Nat) ^ 64 = 2 ^ 63 * 2 := by norm_num
    have hshift : (acc <<< 1) % U64 = 2 * acc := by
      rw [Nat.shiftLeft_eq, U64]
      have hm : acc * 2 ^ 1 = 2 * acc := by ring
      rw [hm, Nat.mod_eq_of_lt (by omega)]
    have hstep :
        (if c = t then ((acc <<< 1) % U64) ||| 1 else (acc <<< 1) % U64) =
          2 * acc + (if c = t then 1 else 0) := by
      by_cases hc : c = t
      · simp only [if_pos hc, hshift]
        exact two_mul_or_one acc
      · simp only [if_neg hc, hshift]
        omega
    simp only [List.foldl_cons, hstep]
    exact ih (2 * acc + (if c = t then 1 else 0)) (by omega)
      (by split <;> omega)

theorem scanBits_eq_bitsOf (t : Char) (l : List Char) (hlen : l.length ≤ 64) :
    scanBits t l = bitsOf t l := by
  unfold scanBits bitsOf
  exact scan_fold_eq t l 0 hlen (Nat.two_pow_pos _)

set_option maxRecDepth 10000 in
/-- C2, counterexample: the general bit characterization fails for
patterns longer than the 64-bit word.  On a 65-character pattern whose
first character is the literal '1', the corresponding bit (position 64)
is shifted out of the `u64` accumulator: the base is 0 and has no set
bit at all. -/
theorem opdef_new_bit_layout_counterexample :
    longPattern.data.length = 65 ∧
    longPattern.data[0]? = some '1' ∧
    (Opdef.new longPattern "").base = 0 ∧
    ((Opdef.new longPattern "").base.testBit
        (longPattern.data.length - 1 - 0)) = false := by
  refine ⟨by decide, by decide, by decide, by decide⟩

/-- C2 (amended): for patterns of at most 64 characters (the `u64`
width), the base has a 1 exactly where the pattern character is the
literal '1', the k-th mask has a 1 exactly where the pattern has
`argOrder`'s k-th letter, and on the worked template
(`"0101aabb"`/`"ab"`) the base is `0b01010000`, the masks are
`0b00001100` and `0b00000011`, and `apply [0b11, 0b01] = 0b01011101`. -/
theorem opdef_new_bit_layout :
    (∀ (spec_str arg_order : String), spec_str.data.length ≤ 64 →
      (∀ (j : Nat) (cj : Char), spec_str.data[j]? = some cj →
        (Opdef.new spec_str arg_order).base.testBit
            (spec_str.data.length - 1 - j) = decide (cj = '1')) ∧
      (∀ (k : Nat) (ac : Char), arg_order.data[k]? = some ac →
        ∃ mask, (Opdef.new spec_str arg_order).args[k]? = some mask ∧
          ∀ (j : Nat) (cj : Char), spec_str.data[j]? = some cj →
            mask.testBit (spec_str.data.length - 1 - j) =
              decide (cj = ac))) ∧
    (Opdef.new "0101aabb" "ab").base = 0b01010000 ∧
    (Opdef.new "0101aabb" "ab").args = [0b00001100, 0b00000011] ∧
    (Opdef.new "0101aabb" "ab").apply [0b11, 0b01] = 0b01011101 := by
  refine ⟨?_, by decide, by decide, by decide⟩
  intro spec_str arg_order hlen
  constructor
  · intro j cj hj
    show (scanBits '1' spec_str.data).testBit _ = _
    rw [scanBits_eq_bitsOf '1' spec_str.data hlen]
    exact bitsOf_testBit '1' spec_str.data j cj hj
  · intro k ac hk
    refine ⟨scanBits ac spec_str.data, ?_, ?_⟩
    · show (arg_order.data.map fun a => scanBits a spec_str.data)[k]? = _
      rw [List.getElem?_map, hk]
      rfl
    · intro j cj hj
      rw [scanBits_eq_bitsOf ac spec_str.data hlen]
      exact bitsOf_testBit ac spec_str.data j cj hj

/-- Witness for C2's amended theorem: the bit characterization evaluated
on the worked template at pattern position 1 (a literal '1') and at the
first mask's position 4 (letter 'a'). -/
theorem opdef_new_bit_layout_witness :
    "0101aabb".data.length ≤ 64 ∧
    "0101aabb".data[1]? = some '1' ∧
    (Opdef.new "0101aabb" "ab").base.testBit
        ("0101aabb".data.length - 1 - 1) = decide ('1' = '1') := by
  refine ⟨by decide, by decide, ?_⟩
  exact (opdef_new_bit_layout.1 "0101aabb" "ab" (by decide)).1 1 '1' (by decide)

/-! ## C3 -/

theorem foldl_wadd16_mod (l : List Nat) :
    ∀ acc : Nat, (l.foldl (fun a b => wadd16 a b) acc) % 256 = (acc + l.sum) % 256 := by
  induction l with
  | nil => intro acc; simp
  | cons b rest ih =>
    intro acc
    simp only [List.foldl_cons, List.sum_cons]
    rw [ih (wadd16 acc b)]
    simp only [wadd16, U16]
    omega

/-- C3: the checksum byte equals the low 8 bits of the two's complement
of the sum of the address low byte, the address high byte, the type
code, the payload length and the payload bytes.  (The source adds the
full 16-bit address where the claim names the low byte, but the
difference, `256 * addr_hi`, vanishes in the low 8 bits.) -/
theorem hexrecord_checksum_formula (r : HexRecord)
    (ha : r.addr < 2 ^ 16) (hd : ∀ b ∈ r.data, b < 256) :
    (r.checksum : Int) =
      (0 - ((r.addr % 256 : Nat) + (r.addr / 256 : Nat) + (r.typ.code : Nat)
          + (r.data.length : Nat) + (r.data.sum : Nat) : Int)) % 256 := by
  have hshift : r.addr >>> 8 = r.addr / 256 := by
    rw [Nat.shiftRight_eq_div_pow]
  have hmod : ∀ x : Nat, (0xff : Nat) &&& x = x % 256 := by
    intro x
    rw [Nat.and_comm]
    have h : (0xff : Nat) = 2 ^ 8 - 1 := by norm_num
    rw [h, Nat.and_pow_two_sub_one_eq_mod]
  set S : Nat := r.addr % 256 + r.addr / 256 + r.typ.code + r.data.length + r.data.sum with hS
  set ret : Nat := r.data.foldl (fun acc byte => wadd16 acc byte)
      (wadd16 (wadd16 (wadd16 (wadd16 0 r.addr) r.typ.code) (r.addr >>> 8))
        (r.data.length % U16)) with hret
  have hr5 : ret % 256 = S % 256 := by
    rw [hret, foldl_wadd16_mod]
    simp only [wadd16, U16, hshift, hS]
    omega
  have htc : twosComplement ret % 256 = (256 - S % 256) % 256 := by
    unfold twosComplement
    have h1 : ((ret ^^^ 65535) + 1) % U16 % 256 = ((ret ^^^ 65535) + 1) % 256 :=
      Nat.mod_mod_of_dvd _ (by norm_num [U16])
    have h2 : (ret ^^^ 65535) % 256 = (ret % 256) ^^^ 255 := by
      have := xor_mod_two_pow ret 65535 8
      norm_num at this
      exact this
    have h3 : (ret % 256) ^^^ 255 = 255 - ret % 256 :=
      xor_255_eq (ret % 256) (Nat.mod_lt _ (by norm_num))
    rw [h1]
    omega
  have hcheck : r.checksum = (256 - S % 256) % 256 := by
    show (0xff &&& twosComplement ret : Nat) = _
    rw [hmod, htc]
  rw [hcheck]
  omega

/-- Witness for C3 at the record from the source's commented test:
type `Data`, address `0x0030`, payload `[0x02, 0x33, 0x7a]`. -/
theorem hexrecord_checksum_formula_witness :
    (0x0030 : Nat) < 2 ^ 16 ∧ (∀ b ∈ [0x02, 0x33, 0x7a], b < 256) ∧
    ((HexRecord.mk HexRecordType.Data 0x0030 [0x02, 0x33, 0x7a]).checksum : Int) =
      (0 - ((0x0030 % 256 : Nat) + (0x0030 / 256 : Nat)
          + (HexRecordType.Data.code : Nat) + (3 : Nat)
          + (([0x02, 0x33, 0x7a] : List Nat).sum : Nat) : Int)) % 256 :=
  ⟨by decide, by decide,
   hexrecord_checksum_formula (HexRecord.mk HexRecordType.Data 0x0030 [0x02, 0x33, 0x7a])
     (by decide) (by decide)⟩

/-! ## C1 -/

theorem pass1_foldl_eq :
    ∀ (code : List CodeObject) (img : List Nat) (off : Nat),
      (code.foldl pass1Step (img, off)).1 = img ++ specAddresses off code := by
  intro code
  induction code with
  | nil => intro img off; simp [specAddresses]
  | cons obj rest ih =>
    intro img off
    have hstep : pass1Step (img, off) obj = (img ++ [off], specStep off obj) := by
      cases obj <;> rfl
    simp only [List.foldl_cons, hstep, specAddresses, ih]
    simp

theorem pass1_eq_spec (code : List CodeObject) (off : Nat) :
    pass1 code off = specAddresses off code := by
  unfold pass1
  rw [pass1_foldl_eq]
  simp

theorem specAddresses_length :
    ∀ (code : List CodeObject) (off : Nat),
      (specAddresses off code).length = code.length := by
  intro code
  induction code with
  | nil => intro off; rfl
  | cons obj rest ih => intro off; simp [specAddresses, ih]

/-- C1: on every accepted sequence the first object is an `AddressTag`
whose value seeds the counter, `addr_image` is parallel to the objects
and equals the sequence the specification describes (current counter
value recorded, then `AddressTag` sets / `Instruction`, `RawData`
increment / `LabelTag` preserves); on example A the addresses are
`[0, 0, 0, 1, 2]` and the label table maps "start" to 0. -/
theorem code_new_addresses :
    (∀ (info : CodeInfo) (code : List CodeObject) (c : Code),
        Code.new? info code = some (Except.ok c) →
        c.addr_image.length = code.length ∧
        ∃ seed rest, code = CodeObject.AddressTag seed :: rest ∧
          c.addr_image = specAddresses seed code) ∧
    Code.new? exInfo exCodeA =
      some (Except.ok
        { info := exInfo, code := exCodeA, addr_image := [0, 0, 0, 1, 2],
          label_table := [("start", 0)] }) := by
  constructor
  · intro info code c h
    match code with
    | [] => simp [Code.new?] at h
    | CodeObject.Instruction idef args :: rest => simp [Code.new?] at h
    | CodeObject.RawData v :: rest => simp [Code.new?] at h
    | CodeObject.LabelTag s :: rest => simp [Code.new?] at h
    | CodeObject.AddressTag seed :: rest =>
      simp only [Code.new?] at h
      cases hp : pass2 ((pass1 (CodeObject.AddressTag seed :: rest) seed).zip
          (CodeObject.AddressTag seed :: rest)) [] with
      | error e => rw [hp] at h; simp at h
      | ok table =>
        rw [hp] at h
        simp only [Option.some_inj, Except.ok.injEq] at h
        subst h
        refine ⟨?_, seed, rest, rfl, ?_⟩
        · show (pass1 _ seed).length = _
          rw [pass1_eq_spec, specAddresses_length]
        · show pass1 _ seed = _
          exact pass1_eq_spec _ seed
  · rfl

/-- Witness for C1 on assembler example A. -/
theorem code_new_addresses_witness :
    ([0, 0, 0, 1, 2] : List Nat).length = exCodeA.length ∧
    ∃ seed rest, exCodeA = CodeObject.AddressTag seed :: rest ∧
      ([0, 0, 0, 1, 2] : List Nat) = specAddresses seed exCodeA :=
  code_new_addresses.1 exInfo exCodeA
    { info := exInfo, code := exCodeA, addr_image := [0, 0, 0, 1, 2],
      label_table := [("start", 0)] } (by rfl)

/-! ## C5 -/

theorem pairLabels_label (a : Nat) (s : String) (rest : List (Nat × CodeObject)) :
    pairLabels ((a, CodeObject.LabelTag s) :: rest) = s :: pairLabels rest := rfl

theorem pairLabels_zip :
    ∀ (addrs : List Nat) (code : List CodeObject),
      addrs.length = code.length →
      pairLabels (addrs.zip code) = labelNames code := by
  intro addrs
  induction addrs with
  | nil =>
    intro code h
    cases code with
    | nil => rfl
    | cons obj rest => simp at h
  | cons a addrs ih =>
    intro code h
    cases code with
    | nil => simp at h
    | cons obj rest =>
      have h' : addrs.length = rest.length := by
        simpa using h
      cases obj with
      | LabelTag s => exact congrArg (List.cons s) (ih rest h')
      | Instruction idef args => exact ih rest h'
      | RawData v => exact ih rest h'
      | AddressTag a2 => exact ih rest h'

theorem count_cons_self (x : String) (l : List String) :
    (x :: l).count x = l.count x + 1 := by
  simp

theorem count_cons_ne (x y : String) (l : List String) (h : y ≠ x) :
    (y :: l).count x = l.count x := by
  simp [List.count_cons, h]

theorem count_le_cons (x y : String) (l : List String) :
    l.count x ≤ (y :: l).count x := by
  by_cases h : y = x
  · subst h; rw [count_cons_self]; omega
  · rw [count_cons_ne x y l h]

theorem tableLookup_insert_self (table : List (String × Nat)) (s : String) (a : Nat) :
    tableLookup (tableInsert table s a) s = some a := by
  simp [tableInsert, tableLookup]

theorem tableLookup_insert_ne (table : List (String × Nat)) (s : String) (a : Nat)
    (n : String) (h : n ≠ s) :
    tableLookup (tableInsert table s a) n = tableLookup table n := by
  simp [tableInsert, tableLookup, if_neg h]

theorem pass2_dup :
    ∀ (l : List (Nat × CodeObject)) (table : List (String × Nat)),
      (∃ n, 2 ≤ (pairLabels l).count n ∨
        (n ∈ pairLabels l ∧ (tableLookup table n).isSome)) →
      ∃ m, pass2 l table = .error (.DuplicateLabel m) ∧
        (2 ≤ (pairLabels l).count m ∨
          (m ∈ pairLabels l ∧ (tableLookup table m).isSome)) := by
  intro l
  induction l with
  | nil =>
    intro table h
    obtain ⟨n, h⟩ := h
    simp [pairLabels] at h
  | cons p rest ih =>
    intro table h
    obtain ⟨a, obj⟩ := p
    cases obj with
    | LabelTag s =>
      by_cases hlk : (tableLookup table s).isSome
      · refine ⟨s, by simp [pass2, hlk], Or.inr ⟨by rw [pairLabels_label]; simp, hlk⟩⟩
      · have hnone : tableLookup table s = none := by
          cases hE : tableLookup table s with
          | none => rfl
          | some v => rw [hE] at hlk; simp at hlk
        obtain ⟨n, hn⟩ := h
        rw [pairLabels_label] at hn
        have hrec : ∃ n, 2 ≤ (pairLabels rest).count n ∨
            (n ∈ pairLabels rest ∧
              (tableLookup (tableInsert table s a) n).isSome) := by
          by_cases hns : n = s
          · subst hns
            rcases hn with hcnt | ⟨hmem, hsome⟩
            · rw [count_cons_self] at hcnt
              refine ⟨n, Or.inr ⟨List.count_pos_iff.mp (by omega), ?_⟩⟩
              rw [tableLookup_insert_self]
              rfl
            · rw [hnone] at hsome; simp at hsome
          · rcases hn with hcnt | ⟨hmem, hsome⟩
            · rw [count_cons_ne n s _ (fun hh => hns hh.symm)] at hcnt
              exact ⟨n, Or.inl hcnt⟩
            · refine ⟨n, Or.inr ⟨?_, ?_⟩⟩
              · rcases List.mem_cons.mp hmem with hh | hh
                · exact absurd hh hns
                · exact hh
              · rw [tableLookup_insert_ne table s a n hns]
                exact hsome
        obtain ⟨m, hm1, hm2⟩ := ih (tableInsert table s a) hrec
        refine ⟨m, by simp [pass2, hlk]; exact hm1, ?_⟩
        rw [pairLabels_label]
        rcases hm2 with hcnt | ⟨hmem, hsome⟩
        · exact Or.inl (le_trans hcnt (count_le_cons m s _))
        · by_cases hms : m = s
          · subst hms
            have hpos : 0 < (pairLabels rest).count m :=
              List.count_pos_iff.mpr hmem
            rw [count_cons_self]
            exact Or.inl (by omega)
          · refine Or.inr ⟨List.mem_cons_of_mem _ hmem, ?_⟩
            rw [tableLookup_insert_ne table s a m hms] at hsome
            exact hsome
    | Instruction idef args =>
      obtain ⟨m, hm1, hm2⟩ := ih table h
      exact ⟨m, by simp [pass2]; exact hm1, hm2⟩
    | RawData v =>
      obtain ⟨m, hm1, hm2⟩ := ih table h
      exact ⟨m, by simp [pass2]; exact hm1, hm2⟩
    | AddressTag a2 =>
      obtain ⟨m, hm1, hm2⟩ := ih table h
      exact ⟨m, by simp [pass2]; exact hm1, hm2⟩

theorem pass2_nodup :
    ∀ (l : List (Nat × CodeObject)) (table : List (String × Nat)),
      (pairLabels l).Nodup →
      (∀ n, n ∈ pairLabels l → tableLookup table n = none) →
      ∃ t, pass2 l table = .ok t ∧
        (∀ a s, (a, CodeObject.LabelTag s) ∈ l → tableLookup t s = some a) ∧
        (∀ n v, tableLookup table n = some v → tableLookup t n = some v) := by
  intro l
  induction l with
  | nil =>
    intro table _ _
    exact ⟨table, rfl, by simp, fun n v h => h⟩
  | cons p rest ih =>
    intro table hnd htab
    obtain ⟨a, obj⟩ := p
    cases obj with
    | LabelTag s =>
      rw [pairLabels_label] at hnd htab
      have hsmem : tableLookup table s = none := htab s (by simp)
      have hnd' : (pairLabels rest).Nodup := (List.nodup_cons.mp hnd).2
      have hsnot : s ∉ pairLabels rest := (List.nodup_cons.mp hnd).1
      have htab' : ∀ n, n ∈ pairLabels rest →
          tableLookup (tableInsert table s a) n = none := by
        intro n hn
        have hns : n ≠ s := fun hh => hsnot (hh ▸ hn)
        rw [tableLookup_insert_ne table s a n hns]
        exact htab n (List.mem_cons_of_mem _ hn)
      obtain ⟨t, ht1, ht2, ht3⟩ := ih (tableInsert table s a) hnd' htab'
      refine ⟨t, ?_, ?_, ?_⟩
      · simp [pass2, hsmem]
        exact ht1
      · intro a2 s2 hmem
        rcases List.mem_cons.mp hmem with hh | hh
        · injection hh with ha hb
          injection hb with hs
          subst ha
          subst hs
          exact ht3 s2 a2 (tableLookup_insert_self table s2 a2)
        · exact ht2 a2 s2 hh
      · intro n v hv
        have hns : n ≠ s := by
          intro hh
          subst hh
          rw [hsmem] at hv
          cases hv
        refine ht3 n v ?_
        rw [tableLookup_insert_ne table s a n hns]
        exact hv
    | Instruction idef args =>
      obtain ⟨t, ht1, ht2, ht3⟩ := ih table hnd htab
      refine ⟨t, by simp [pass2]; exact ht1, ?_, ht3⟩
      intro a2 s2 hmem
      rcases List.mem_cons.mp hmem with hh | hh
      · cases hh
      · exact ht2 a2 s2 hh
    | RawData v =>
      obtain ⟨t, ht1, ht2, ht3⟩ := ih table hnd htab
      refine ⟨t, by simp [pass2]; exact ht1, ?_, ht3⟩
      intro a2 s2 hmem
      rcases List.mem_cons.mp hmem with hh | hh
      · cases hh
      · exact ht2 a2 s2 hh
    | AddressTag a2 =>
      obtain ⟨t, ht1, ht2, ht3⟩ := ih table hnd htab
      refine ⟨t, by simp [pass2]; exact ht1, ?_, ht3⟩
      intro a3 s2 hmem
      rcases List.mem_cons.mp hmem with hh | hh
      · cases hh
      · exact ht2 a3 s2 hh

/-- C5, counterexample: a sequence with two identical `LabelTag "a"`
objects that does not start with an `AddressTag` is rejected as
`StartWithAddressTag`, not `DuplicateLabel("a")`: the leading-marker
check precedes the duplicate check. -/
theorem code_new_duplicate_label_counterexample :
    Code.new? exInfo [CodeObject.LabelTag "a", CodeObject.LabelTag "a"] =
      some (.error .StartWithAddressTag) ∧
    some (Except.error CompileError.StartWithAddressTag : Except CompileError Code) ≠
      some (.error (.DuplicateLabel "a")) := by
  refine ⟨rfl, ?_⟩
  intro h
  injection h with h
  injection h with h
  exact CompileError.noConfusion h

/-- C5 (amended): for sequences that pass the leading `AddressTag`
check, a name carried by two `LabelTag` objects anywhere in the sequence
makes `Code::new` yield `DuplicateLabel` with a duplicated name,
regardless of the labels' addresses; when all label names are distinct,
the label table maps each label name to the address recorded for its
`LabelTag`. -/
theorem code_new_label_table :
    (∀ (info : CodeInfo) (seed : Nat) (rest : List CodeObject),
        (∃ n, 2 ≤ (labelNames (CodeObject.AddressTag seed :: rest)).count n) →
        ∃ m, 2 ≤ (labelNames (CodeObject.AddressTag seed :: rest)).count m ∧
          Code.new? info (CodeObject.AddressTag seed :: rest) =
            some (.error (.DuplicateLabel m))) ∧
    (∀ (info : CodeInfo) (seed : Nat) (rest : List CodeObject),
        (labelNames (CodeObject.AddressTag seed :: rest)).Nodup →
        ∃ c, Code.new? info (CodeObject.AddressTag seed :: rest) =
            some (.ok c) ∧
          c.code = CodeObject.AddressTag seed :: rest ∧
          ∀ addr s, (addr, CodeObject.LabelTag s) ∈ c.addr_image.zip c.code →
            tableLookup c.label_table s = some addr) := by
  constructor
  · intro info seed rest h
    have hlen : (pass1 (CodeObject.AddressTag seed :: rest) seed).length =
        (CodeObject.AddressTag seed :: rest).length := by
      rw [pass1_eq_spec]
      exact specAddresses_length _ seed
    have hbridge :
        pairLabels ((pass1 (CodeObject.AddressTag seed :: rest) seed).zip
            (CodeObject.AddressTag seed :: rest)) =
          labelNames (CodeObject.AddressTag seed :: rest) :=
      pairLabels_zip _ _ hlen
    obtain ⟨n, hn⟩ := h
    obtain ⟨m, hm1, hm2⟩ :=
      pass2_dup ((pass1 (CodeObject.AddressTag seed :: rest) seed).zip
          (CodeObject.AddressTag seed :: rest)) []
        ⟨n, Or.inl (by rw [hbridge]; exact hn)⟩
    have hm2' : 2 ≤ (labelNames (CodeObject.AddressTag seed :: rest)).count m := by
      rcases hm2 with hcnt | ⟨_, hsome⟩
      · rw [hbridge] at hcnt; exact hcnt
      · simp [tableLookup] at hsome
    refine ⟨m, hm2', ?_⟩
    simp only [Code.new?]
    rw [hm1]
  · intro info seed rest hnd
    have hlen : (pass1 (CodeObject.AddressTag seed :: rest) seed).length =
        (CodeObject.AddressTag seed :: rest).length := by
      rw [pass1_eq_spec]
      exact specAddresses_length _ seed
    have hbridge :
        pairLabels ((pass1 (CodeObject.AddressTag seed :: rest) seed).zip
            (CodeObject.AddressTag seed :: rest)) =
          labelNames (CodeObject.AddressTag seed :: rest) :=
      pairLabels_zip _ _ hlen
    obtain ⟨t, ht1, ht2, _⟩ :=
      pass2_nodup ((pass1 (CodeObject.AddressTag seed :: rest) seed).zip
          (CodeObject.AddressTag seed :: rest)) []
        (by rw [hbridge]; exact hnd) (fun n _ => rfl)
    refine ⟨{ info := info, code := CodeObject.AddressTag seed :: rest,
              addr_image := pass1 (CodeObject.AddressTag seed :: rest) seed,
              label_table := t }, ?_, rfl, ?_⟩
    · simp only [Code.new?]
      rw [ht1]
    · intro addr s hmem
      exact ht2 addr s hmem

/-- Witness for C5's amended theorem: a duplicated label "x" after an
address mark is rejected as `DuplicateLabel`, and example A's distinct
labels produce a table with "start" at its recorded address. -/
theorem code_new_label_table_witness :
    (∃ m, 2 ≤ (labelNames
        [CodeObject.AddressTag 0, CodeObject.LabelTag "x",
          CodeObject.LabelTag "x"]).count m ∧
      Code.new? exInfo
          [CodeObject.AddressTag 0, CodeObject.LabelTag "x",
            CodeObject.LabelTag "x"] =
        some (.error (.DuplicateLabel m))) ∧
    (∃ c, Code.new? exInfo exCodeA = some (.ok c) ∧
      c.code = exCodeA ∧
      ∀ addr s, (addr, CodeObject.LabelTag s) ∈ c.addr_image.zip c.code →
        tableLookup c.label_table s = some addr) :=
  ⟨code_new_label_table.1 exInfo 0
     [CodeObject.LabelTag "x", CodeObject.LabelTag "x"] ⟨"x", by decide⟩,
   code_new_label_table.2 exInfo 0
     [CodeObject.LabelTag "start",
       CodeObject.Instruction idefAdd [IArg.Raw 3, IArg.Raw 0],
       CodeObject.Instruction idefJmp [IArg.Raw 0xdead],
       CodeObject.RawData 0xad] (by decide)⟩

end Uokichi
